import Mathlib

/-!
Shallow embedding of `src/workers/mod.rs` from pg_vectorize: the worker loop
(`run_worker`), the job executor (`execute_job`) and the two persistence
strategies (`build_upsert_query` / `upsert_embedding_table` for the join
strategy, `update_append_table` for the append strategy).

External collaborators (the pgmq queue client, the embedding dispatcher in
`crate::transformers`, the sqlx database connection, serde_json) are modelled
at their interface boundary: fallible calls become `Except`-valued oracles
passed in as parameters, database statement execution is recorded as a trace
of issued `SqlStmt`s, and a Rust `panic!`/`expect` is modelled by an outer
`Option` (`none` = panic).
-/

namespace PgVectorize

/-- A double-precision floating point value as it matters to this worker:
either a finite value (modelled by its rational value) or one of the
non-finite values.  No claim depends on float arithmetic, only on
serialization and finiteness. -/
inductive F64 where
  | finite (q : Rat)
  | nan
  | inf
  | neginf
deriving DecidableEq

def F64.isFinite : F64 → Bool
  | .finite _ => true
  | _ => false

/-- Right fold concatenation of a list of strings. -/
def str_concat : List String → String
  | [] => ""
  | s :: rest => s ++ str_concat rest

/-- Comma-separated join of a list of strings (no trailing separator). -/
def comma_sep : List String → String
  | [] => ""
  | [s] => s
  | s :: rest => s ++ "," ++ comma_sep rest

/-- Modelled from the spec: serde_json's rendering of one f64 as a JSON
number token ("canonical numeric-array text form", §4.3/§4.4).  Non-finite
numbers are not pre-validated here (spec §4.4): serde_json renders them as
`null`, leaving them to fail later at the database. -/
def num_repr : F64 → String
  | .finite q => toString q
  | .nan => "null"
  | .inf => "null"
  | .neginf => "null"

/-- Modelled from the spec: serde_json's rendering of a `Vec<f64>` as a JSON
array text. -/
def json_array (l : List F64) : String :=
  "[" ++ comma_sep (l.map num_repr) ++ "]"

/-- Modelled from the spec: `serde_json::to_string` on a `Vec<f64>`.  Its
Rust signature is fallible (`Result<String>`), modelled by `Option`; on a
plain vector of doubles it always succeeds (non-finite values serialize as
`null` rather than erroring, spec §4.4). -/
def to_string (l : List F64) : Option String :=
  some (json_array l)

/-- `table_method` enum from `crate::types` (spec §3: `append | join`). -/
inductive TableMethod where
  | append
  | join
deriving DecidableEq

/-- Job Params (spec §3): resolved per-message configuration. -/
structure JobParams where
  schema : String
  table : String
  primary_key : String
  pkey_type : String
  table_method : TableMethod
deriving DecidableEq

/-- Job Meta (spec §3).  The raw `params` field is a `serde_json::Value`
that `execute_job` deserializes into `JobParams`; decoding is modelled by
`Option JobParams` (`none` = malformed payload). -/
structure JobMeta where
  name : String
  transformer : String
  params : Option JobParams
deriving DecidableEq

/-- Input Record (spec §3): string-encoded primary key plus source text. -/
structure InputRecord where
  record_id : String
  input_text : String
deriving DecidableEq

/-- `crate::executor::JobMessage`: the message payload. -/
structure JobMessage where
  job_name : String
  job_meta : JobMeta
  inputs : List InputRecord
deriving DecidableEq

/-- `pgmq::Message<JobMessage>`: queue envelope with id and read count. -/
structure Message where
  msg_id : Int
  read_ct : Int
  message : JobMessage
deriving DecidableEq

/-- Paired Embedding (spec §3): one input record's primary key with its
resulting vector (`crate::transformers::types::PairedEmbeddings`). -/
structure PairedEmbeddings where
  primary_key : String
  embeddings : List F64
deriving DecidableEq

/-- Modelled from the spec: the Embedding Dispatcher's output element.  Per
§9 the dispatcher must echo back each input's key so that pairing can be
keyed, never positional. -/
structure KeyedVector where
  primary_key : String
  embeddings : List F64
deriving DecidableEq

/-- Provider request built before invoking the dispatcher.  Spec §4.2: a
closed two-way branch, OpenAI-style or generic. -/
inductive EmbeddingRequest where
  | openai (meta : JobMeta) (inputs : List InputRecord)
  | generic (meta : JobMeta) (inputs : List InputRecord)
deriving DecidableEq

/-- Modelled from the spec: `openai::prepare_openai_request` (external to
`src/`, pure request construction, spec §6). -/
def prepare_openai_request (meta : JobMeta) (inputs : List InputRecord) :
    Except String EmbeddingRequest :=
  .ok (.openai meta inputs)

/-- Modelled from the spec: `generic::prepare_generic_embedding_request`
(external to `src/`, pure request construction, spec §6). -/
def prepare_generic_embedding_request (meta : JobMeta) (inputs : List InputRecord) :
    Except String EmbeddingRequest :=
  .ok (.generic meta inputs)

/-- One parameterized SQL statement issued to the database: query text plus
the bound parameters in bind order. -/
structure SqlStmt where
  query : String
  binds : List String
deriving DecidableEq

/-- Outcome oracle for database statement execution (the sqlx pool). -/
abbrev DbExec : Type := SqlStmt → Except String Unit

/-- Outcome oracle for the dispatcher invocation
(`http_handler::openai_embedding_request`, external to `src/`). -/
abbrev Dispatcher : Type := EmbeddingRequest → Except String (List KeyedVector)

/-- `serde_json::from_value::<JobParams>` on the raw params value. -/
def from_value : Option JobParams → Except String JobParams
  | some p => .ok p
  | none => .error "failed to deserialize job params"

/-- The `format!` value-group fragment ` (${2i+1}, ${2i+2}::vector)` pushed
for the pair at position `index` in `build_upsert_query`
(`src/workers/mod.rs:94-98`). -/
def value_group (index : Nat) : String :=
  " ($" ++ toString (2 * index + 1) ++ ", $" ++ toString (2 * index + 2) ++ "::vector)"

/-- The initial `format!` text of the upsert query
(`src/workers/mod.rs:84-87`), newline and indentation included. -/
def insert_stmt_head (schema project : String) : String :=
  "\n        INSERT INTO " ++ schema ++ "." ++ project
    ++ "_embeddings (record_id, embeddings) VALUES"

/-- The trailing conflict clause of the upsert query
(`src/workers/mod.rs:105`). -/
def on_conflict_clause : String :=
  " ON CONFLICT (record_id) DO UPDATE SET embeddings = EXCLUDED.embeddings"

/-- The loop of `build_upsert_query` (`src/workers/mod.rs:90-103`), carrying
the enumeration index: produces the VALUES text and the bindings list, or
`none` when `serde_json::to_string(..).expect(..)` panics. -/
def upsert_values : List PairedEmbeddings → Nat → Option (String × List (String × String))
  | [], _ => some ("", [])
  | pair :: rest, index =>
    match to_string pair.embeddings with
    | none => none
    | some embedding =>
      match upsert_values rest (index + 1) with
      | none => none
      | some (q, b) =>
        some ((if index > 0 then "," else "") ++ value_group index ++ q,
          (pair.primary_key, embedding) :: b)

/-- `build_upsert_query` (`src/workers/mod.rs:79-107`): returns query and
bindings; `none` models the `expect` panic on serialization failure. -/
def build_upsert_query (schema project : String) (embeddings : List PairedEmbeddings) :
    Option (String × List (String × String)) :=
  match upsert_values embeddings 0 with
  | none => none
  | some (vals, bindings) =>
    some (insert_stmt_head schema project ++ vals ++ on_conflict_clause, bindings)

/-- Flattening of the bindings as `upsert_embedding_table` binds them:
`record_id` then serialized embeddings, pair after pair
(`src/workers/mod.rs:65-67`). -/
def flatten_bindings : List (String × String) → List String
  | [] => []
  | (record_id, embedding) :: rest => record_id :: embedding :: flatten_bindings rest

/-- `upsert_embedding_table` (`src/workers/mod.rs:57-75`): builds the upsert
query, executes it once, maps an execution error to
`anyhow!("failed to execute query")`.  Returns the job-level result (outer
`Option` = panic) together with the trace of statements issued. -/
def upsert_embedding_table (conn : DbExec) (schema project : String)
    (embeddings : List PairedEmbeddings) :
    Option (Except String Unit) × List SqlStmt :=
  match build_upsert_query schema project embeddings with
  | none => (none, [])
  | some (query, bindings) =>
    let stmt : SqlStmt := ⟨query, flatten_bindings bindings⟩
    match conn stmt with
    | .ok _ => (some (.ok ()), [stmt])
    | .error _ => (some (.error "failed to execute query"), [stmt])

/-- The per-record UPDATE text of the append strategy
(`src/workers/mod.rs:125-133`), whitespace preserved from the source
`format!` literal. -/
def append_update_query (schema table project pkey pkey_type : String) : String :=
  "\n            UPDATE " ++ schema ++ "." ++ table
    ++ "\n            SET \n                " ++ project
    ++ "_embeddings = $1::vector,\n                " ++ project
    ++ "_updated_at = (NOW() at time zone \x27utc\x27)\n            WHERE "
    ++ pkey ++ " = $2::" ++ pkey_type ++ "\n        "

/-- `update_append_table` (`src/workers/mod.rs:111-142`): per record,
serialize the vector (`expect` = `none` on panic), issue one UPDATE with
`$1` = serialized vector and `$2` = primary key; `?` aborts the remaining
records on the first execution error. -/
def update_append_table (pool : DbExec) (embeddings : List PairedEmbeddings)
    (schema table project pkey pkey_type : String) :
    Option (Except String Unit) × List SqlStmt :=
  match embeddings with
  | [] => (some (.ok ()), [])
  | embed :: rest =>
    match to_string embed.embeddings with
    | none => (none, [])
    | some embedding =>
      let stmt : SqlStmt :=
        ⟨append_update_query schema table project pkey pkey_type,
          [embedding, embed.primary_key]⟩
      match pool stmt with
      | .error e => (some (.error e), [stmt])
      | .ok _ =>
        match update_append_table pool rest schema table project pkey pkey_type with
        | (r, stmts) => (r, stmt :: stmts)

/-- The dispatch selection of `execute_job` (`src/workers/mod.rs:148-154`):
a match on the `transformer` string, OpenAI-style for the designated model
id, generic for everything else. -/
def embedding_request (job_meta : JobMeta) (inputs : List InputRecord) :
    Except String EmbeddingRequest :=
  match job_meta.transformer with
  | "text-embedding-ada-002" => prepare_openai_request job_meta inputs
  | _ => prepare_generic_embedding_request job_meta inputs

/-- Modelled from the spec: `http_handler::merge_input_output` (external to
`src/`).  Per §3/§6/§9 the merge is keyed by primary key — each input record
is paired with the dispatcher output element carrying the same key, never
with the element at the same position. -/
def merge_input_output (inputs : List InputRecord) (embeddings : List KeyedVector) :
    List PairedEmbeddings :=
  inputs.filterMap fun inp =>
    (embeddings.find? fun e => e.primary_key == inp.record_id).map fun e =>
      ⟨inp.record_id, e.embeddings⟩

/-- `execute_job` (`src/workers/mod.rs:144-186`): deserialize params, build
the provider request, invoke the dispatcher, merge, then write via the
strategy selected by `table_method`.  Returns the job result (outer
`Option` = panic) and the trace of SQL statements issued. -/
def execute_job (dbclient : DbExec) (dispatcher : Dispatcher) (msg : Message) :
    Option (Except String Unit) × List SqlStmt :=
  let job_meta := msg.message.job_meta
  match from_value job_meta.params with
  | .error e => (some (.error e), [])
  | .ok job_params =>
    match embedding_request job_meta msg.message.inputs with
    | .error e => (some (.error e), [])
    | .ok request =>
      match dispatcher request with
      | .error e => (some (.error e), [])
      | .ok embeddings =>
        let paired_embeddings := merge_input_output msg.message.inputs embeddings
        match job_params.table_method with
        | .append =>
          update_append_table dbclient paired_embeddings job_params.schema
            job_params.table job_meta.name job_params.primary_key job_params.pkey_type
        | .join =>
          upsert_embedding_table dbclient job_params.schema job_meta.name paired_embeddings

/-- Outcome of `queue.read` (`src/workers/mod.rs:16`): transport error, no
message, or one message. -/
abbrev ReadOutcome : Type := Except String (Option Message)

/-- `run_worker` (`src/workers/mod.rs:11-55`).  The queue read outcome and
the delete outcome are oracles for the external queue client.  Result:
`none` = panic propagated from `execute_job`; otherwise the worker's return
value (`Ok(None)` = no progress, `Ok(Some(()))` = progress, `Err` = read
failure), the flag saying whether `queue.delete` was issued, and the SQL
trace.  A delete error is logged and swallowed (`src/workers/mod.rs:47-49`),
so `delete_outcome` does not influence the result. -/
def run_worker (read_outcome : ReadOutcome) (conn : DbExec) (dispatcher : Dispatcher)
    (_delete_outcome : Except String Unit) :
    Option (Except String (Option Unit) × Bool × List SqlStmt) :=
  match read_outcome with
  | .error _ => some (.error "failed to read message", false, [])
  | .ok none => some (.ok none, false, [])
  | .ok (some msg) =>
    let read_ct : Int := msg.read_ct
    match execute_job conn dispatcher msg with
    | (none, _) => none
    | (some job_success, stmts) =>
      let delete_it : Bool :=
        match job_success with
        | .ok _ => true
        | .error _ => decide (read_ct > 2)
      some (.ok (some ()), delete_it, stmts)

/-- Modelled from the spec: the join-strategy table
`<schema>.<project>_embeddings(record_id, embeddings)` (§4.4), as a list of
rows `(record_id, embeddings)`. -/
abbrev JoinTable : Type := List (String × String)

/-- Modelled from the spec: the database's `ON CONFLICT (record_id) DO
UPDATE SET embeddings = EXCLUDED.embeddings` treatment of one VALUES row
(§6): overwrite the embeddings of every existing row with that key, or
append a fresh row when the key is absent. -/
def upsert_row (t : JoinTable) (r : String × String) : JoinTable :=
  if t.any (fun row => row.1 == r.1) then
    t.map fun row => if row.1 == r.1 then (row.1, r.2) else row
  else
    t ++ [r]

/-- Modelled from the spec: executing one multi-row upsert statement, row by
row in VALUES order, against the join table. -/
def apply_upsert (t : JoinTable) (rows : List (String × String)) : JoinTable :=
  rows.foldl upsert_row t

/-- The keys (record_ids) of a join table. -/
def join_keys (t : JoinTable) : List String := t.map Prod.fst

/-- Modelled from the spec: one row of the append-strategy target table —
its primary key (as a string-encoded value), its source content, and the two
columns the worker writes (`<project>_embeddings`, `<project>_updated_at`).
`updated_at` holds the abstract time at which the last UPDATE ran. -/
structure AppendRow where
  key : String
  content : String
  embeddings_col : Option String
  updated_at : Option Nat
deriving DecidableEq

/-- Modelled from the spec: the database's execution at time `τ` of one
`UPDATE .. SET <project>_embeddings = $1, <project>_updated_at = now()
WHERE <pkey> = $2` statement with bound vector `v` and key `k` (§4.3):
every row whose key matches is overwritten. -/
def apply_append_update (τ : Nat) (v k : String) (t : List AppendRow) : List AppendRow :=
  t.map fun row =>
    if row.key == k then { row with embeddings_col := some v, updated_at := some τ } else row

/-- Modelled from the spec: one append-strategy UPDATE statement applied to
the table; the binds are `[$1, $2]` = `[serialized vector, key]` exactly as
`update_append_table` issues them. -/
def apply_append_stmt (τ : Nat) (t : List AppendRow) (stmt : SqlStmt) : List AppendRow :=
  match stmt.binds with
  | [v, k] => apply_append_update τ v k t
  | _ => t

/-- Modelled from the spec: executing a whole run's worth of append-strategy
UPDATE statements, in issue order, all at time `τ`. -/
def apply_append_run (t : List AppendRow) (stmts : List SqlStmt) (τ : Nat) : List AppendRow :=
  stmts.foldl (apply_append_stmt τ) t

end PgVectorize

deriving instance DecidableEq for Except

namespace PgVectorize

/-- Claim C7: request-building in the Job Executor is a closed two-way
branch selected purely by string equality on `job_meta.transformer`: the
designated OpenAI model identifier "text-embedding-ada-002" yields an
OpenAI-style request, every other transformer string yields a generic
provider request. -/
theorem embedding_request_two_way_branch (job_meta : JobMeta) (inputs : List InputRecord) :
    embedding_request job_meta inputs =
      if job_meta.transformer = "text-embedding-ada-002" then
        Except.ok (EmbeddingRequest.openai job_meta inputs)
      else
        Except.ok (EmbeddingRequest.generic job_meta inputs) := by
  unfold embedding_request prepare_openai_request prepare_generic_embedding_request
  split
  · rename_i h
    rw [if_pos h]
  · rename_i h
    rw [if_neg h]

/-- Claim C9: on the empty batch, `build_upsert_query` returns the query
with zero value groups — the text `VALUES` (ending `insert_stmt_head`)
immediately followed by the ON CONFLICT clause — and an empty bindings
list, and `upsert_embedding_table` still issues that one statement rather
than skipping the write. -/
theorem build_upsert_query_empty_batch (conn : DbExec) (schema project : String) :
    build_upsert_query schema project [] =
      some (insert_stmt_head schema project ++ on_conflict_clause, []) ∧
    (upsert_embedding_table conn schema project []).2 =
      [⟨insert_stmt_head schema project ++ on_conflict_clause, []⟩] := by
  have hq : build_upsert_query schema project [] =
      some (insert_stmt_head schema project ++ on_conflict_clause, []) := by
    unfold build_upsert_query upsert_values
    simp [String.append_empty]
  refine ⟨hq, ?_⟩
  simp only [upsert_embedding_table, hq, flatten_bindings]
  cases conn ⟨insert_stmt_head schema project ++ on_conflict_clause, []⟩ <;> rfl

/-- Claim C6: when the Embedding Dispatcher invocation returns an error,
`execute_job` returns that failure and issues no database statement. -/
theorem execute_job_dispatcher_error_no_write
    (conn : DbExec) (dispatcher : Dispatcher) (msg : Message)
    (job_params : JobParams) (request : EmbeddingRequest) (e : String)
    (hp : from_value msg.message.job_meta.params = .ok job_params)
    (hr : embedding_request msg.message.job_meta msg.message.inputs = .ok request)
    (hd : dispatcher request = .error e) :
    execute_job conn dispatcher msg = (some (.error e), []) := by
  simp only [execute_job, hp, hr, hd]

/-- Claim C6 witness: a concrete message whose dispatcher invocation fails
yields a failed job with an empty statement trace. -/
theorem execute_job_dispatcher_error_no_write_witness :
    execute_job (fun _ => .ok ()) (fun _ => .error "provider down")
      ⟨7, 1, ⟨"job", ⟨"proj", "generic", some ⟨"s", "t", "id", "int", .join⟩⟩,
        [⟨"a", "text"⟩]⟩⟩ = (some (.error "provider down"), []) :=
  execute_job_dispatcher_error_no_write (fun _ => .ok ())
    (fun _ => .error "provider down") _ ⟨"s", "t", "id", "int", .join⟩
    (.generic ⟨"proj", "generic", some ⟨"s", "t", "id", "int", .join⟩⟩ [⟨"a", "text"⟩])
    "provider down" rfl rfl rfl

/-- Claim C5: `run_worker` returns the distinct no-progress value `Ok(None)`
when the queue is empty, returns an error and issues no delete when the
dequeue itself fails, and returns progress `Ok(Some(()))` whenever a message
was read, regardless of the job result, the delete decision or the delete
outcome. -/
theorem run_worker_progress_semantics :
    (∀ (e : String) (conn : DbExec) (dispatcher : Dispatcher) (d : Except String Unit),
        run_worker (.error e) conn dispatcher d =
          some (.error "failed to read message", false, [])) ∧
    (∀ (conn : DbExec) (dispatcher : Dispatcher) (d : Except String Unit),
        run_worker (.ok none) conn dispatcher d = some (.ok none, false, [])) ∧
    (∀ (msg : Message) (conn : DbExec) (dispatcher : Dispatcher)
        (d : Except String Unit) (job_success : Except String Unit) (stmts : List SqlStmt),
        execute_job conn dispatcher msg = (some job_success, stmts) →
        ∃ delete_it, run_worker (.ok (some msg)) conn dispatcher d =
          some (.ok (some ()), delete_it, stmts)) := by
  refine ⟨fun e conn dispatcher d => rfl, fun conn dispatcher d => rfl, ?_⟩
  intro msg conn dispatcher d job_success stmts h
  simp only [run_worker, h]
  cases job_success <;> exact ⟨_, rfl⟩

/-- Claim C5 witness: the three cases of `run_worker_progress_semantics`
instantiated at concrete inputs; the progress case uses a failing job on a
first delivery, where the message is read but not deleted. -/
theorem run_worker_progress_semantics_witness :
    run_worker (.error "net down") (fun _ => .ok ()) (fun _ => .error "x") (.ok ()) =
      some (.error "failed to read message", false, []) ∧
    run_worker (.ok none) (fun _ => .ok ()) (fun _ => .error "x") (.ok ()) =
      some (.ok none, false, []) ∧
    ∃ delete_it,
      run_worker
        (.ok (some ⟨7, 1, ⟨"job", ⟨"proj", "generic", some ⟨"s", "t", "id", "int", .join⟩⟩,
          [⟨"a", "text"⟩]⟩⟩)) (fun _ => .ok ()) (fun _ => .error "x") (.ok ()) =
        some (.ok (some ()), delete_it, []) :=
  ⟨run_worker_progress_semantics.1 "net down" (fun _ => .ok ()) (fun _ => .error "x") (.ok ()),
   run_worker_progress_semantics.2.1 (fun _ => .ok ()) (fun _ => .error "x") (.ok ()),
   run_worker_progress_semantics.2.2 _ (fun _ => .ok ()) (fun _ => .error "x") (.ok ())
     (.error "x") [] (by decide)⟩

/-- Claim C1: when a message was read, `run_worker` issues the queue delete
if and only if the Job Executor succeeded or the message's `read_ct`
exceeds 2; on failure with `read_ct <= 2` the message is left in the queue
(no delete issued). -/
theorem run_worker_delete_iff
    (msg : Message) (conn : DbExec) (dispatcher : Dispatcher) (d : Except String Unit)
    (job_success : Except String Unit) (stmts : List SqlStmt)
    (h : execute_job conn dispatcher msg = (some job_success, stmts)) :
    ∃ delete_it,
      run_worker (.ok (some msg)) conn dispatcher d =
        some (.ok (some ()), delete_it, stmts) ∧
      (delete_it = true ↔ (job_success.isOk = true ∨ msg.read_ct > 2)) := by
  simp only [run_worker, h]
  cases job_success with
  | ok _ => exact ⟨true, rfl, ⟨fun _ => Or.inl rfl, fun _ => rfl⟩⟩
  | error _ =>
    refine ⟨decide (msg.read_ct > 2), rfl, ?_⟩
    constructor
    · intro hd2
      exact Or.inr (of_decide_eq_true hd2)
    · intro hd2
      rcases hd2 with habs | hgt
      · exact Bool.noConfusion habs
      · exact decide_eq_true hgt

/-- Claim C1 witness: a failing job on read_ct 2 is not deleted, applying
`run_worker_delete_iff` at a concrete message, executor and oracles. -/
theorem run_worker_delete_iff_witness :
    ∃ delete_it,
      run_worker
        (.ok (some ⟨9, 2, ⟨"job", ⟨"proj", "generic", some ⟨"s", "t", "id", "int", .join⟩⟩,
          [⟨"a", "text"⟩]⟩⟩)) (fun _ => .ok ()) (fun _ => .error "boom") (.ok ()) =
        some (.ok (some ()), delete_it, []) ∧
      (delete_it = true ↔
        ((Except.error "boom" : Except String Unit).isOk = true ∨ (2 : Int) > 2)) :=
  run_worker_delete_iff _ (fun _ => .ok ()) (fun _ => .error "boom") (.ok ())
    (.error "boom") [] (by decide)

theorem comma_sep_cons (x : String) (xs : List String) :
    comma_sep (x :: xs) = x ++ str_concat (xs.map fun s => "," ++ s) := by
  induction xs generalizing x with
  | nil => simp [comma_sep, str_concat, String.append_empty]
  | cons y ys ih =>
    simp only [comma_sep, List.map_cons, str_concat, ih y]
    rw [String.append_assoc, String.append_assoc]

theorem flatten_bindings_length (bs : List (String × String)) :
    (flatten_bindings bs).length = 2 * bs.length := by
  induction bs with
  | nil => rfl
  | cons b rest ih =>
    cases b
    simp only [flatten_bindings, List.length_cons, ih]
    omega

theorem upsert_values_pos (l : List PairedEmbeddings) :
    ∀ i : Nat, 1 ≤ i →
    upsert_values l i =
      some (str_concat ((List.range l.length).map fun j => "," ++ value_group (i + j)),
        l.map fun p => (p.primary_key, json_array p.embeddings)) := by
  induction l with
  | nil => intro i _; simp [upsert_values, str_concat]
  | cons p rest ih =>
    intro i hi
    have harith : (fun j => "," ++ value_group (i + (j + 1))) =
        (fun j => "," ++ value_group (i + 1 + j)) := by
      funext j
      congr 2
      omega
    simp only [upsert_values, to_string, ih (i + 1) (by omega), List.length_cons,
      List.range_succ_eq_map, List.map_cons, List.map_map, str_concat]
    rw [if_pos (by omega)]
    simp only [Function.comp_def, Nat.succ_eq_add_one, Nat.add_zero, harith,
      String.append_assoc]

theorem upsert_values_zero (l : List PairedEmbeddings) (hl : l ≠ []) :
    upsert_values l 0 =
      some (comma_sep ((List.range l.length).map value_group),
        l.map fun p => (p.primary_key, json_array p.embeddings)) := by
  cases l with
  | nil => exact absurd rfl hl
  | cons p rest =>
    have harith : (fun j => "," ++ value_group (j + 1)) =
        (fun j => "," ++ value_group (1 + j)) := by
      funext j
      congr 2
      omega
    simp only [upsert_values, to_string, upsert_values_pos rest 1 le_rfl,
      List.length_cons, List.range_succ_eq_map, List.map_cons, List.map_map,
      comma_sep_cons, Function.comp_def, Nat.succ_eq_add_one, harith]
    rw [if_neg (by omega)]
    simp [String.append_assoc]

/-- Claim C3: on a non-empty batch of `n` Paired Embeddings,
`build_upsert_query` produces one INSERT whose VALUES text is the
comma-separated sequence of the `n` value groups
` ($(2i+1), $(2i+2)::vector)` for `i = 0..n-1` (positional parameters
`$1..$2n`, two per row), terminated by the ON CONFLICT clause on
`record_id`, together with exactly `n` `(primary_key, serialized vector)`
bindings in input order — `2n` bound parameters once flattened in bind
order. -/
theorem build_upsert_query_batch (schema project : String)
    (pairs : List PairedEmbeddings) (h : pairs ≠ []) :
    build_upsert_query schema project pairs =
      some (insert_stmt_head schema project
          ++ comma_sep ((List.range pairs.length).map value_group)
          ++ on_conflict_clause,
        pairs.map fun p => (p.primary_key, json_array p.embeddings)) ∧
    (flatten_bindings (pairs.map fun p =>
        (p.primary_key, json_array p.embeddings))).length = 2 * pairs.length := by
  constructor
  · simp only [build_upsert_query, upsert_values_zero pairs h]
  · rw [flatten_bindings_length, List.length_map]

/-- Claim C3 witness: the spec's two-record scenario — embeddings
`[("a",[0.1,0.2]), ("b",[0.3,0.4])]` give one INSERT with two value groups
(`$1..$4`) and four bound parameters. -/
theorem build_upsert_query_batch_witness :
    ([⟨"a", [.finite (1/10), .finite (1/5)]⟩,
      ⟨"b", [.finite (3/10), .finite (2/5)]⟩] : List PairedEmbeddings) ≠ [] ∧
    (build_upsert_query "public" "items"
        [⟨"a", [.finite (1/10), .finite (1/5)]⟩, ⟨"b", [.finite (3/10), .finite (2/5)]⟩] =
      some (insert_stmt_head "public" "items"
          ++ comma_sep ((List.range
              ([⟨"a", [.finite (1/10), .finite (1/5)]⟩,
                ⟨"b", [.finite (3/10), .finite (2/5)]⟩] : List PairedEmbeddings).length).map
              value_group)
          ++ on_conflict_clause,
        ([⟨"a", [.finite (1/10), .finite (1/5)]⟩,
          ⟨"b", [.finite (3/10), .finite (2/5)]⟩] : List PairedEmbeddings).map fun p =>
            (p.primary_key, json_array p.embeddings)) ∧
      (flatten_bindings
          (([⟨"a", [.finite (1/10), .finite (1/5)]⟩,
            ⟨"b", [.finite (3/10), .finite (2/5)]⟩] : List PairedEmbeddings).map fun p =>
              (p.primary_key, json_array p.embeddings))).length =
        2 * ([⟨"a", [.finite (1/10), .finite (1/5)]⟩,
          ⟨"b", [.finite (3/10), .finite (2/5)]⟩] : List PairedEmbeddings).length) :=
  ⟨by decide,
   build_upsert_query_batch "public" "items"
     [⟨"a", [.finite (1/10), .finite (1/5)]⟩, ⟨"b", [.finite (3/10), .finite (2/5)]⟩]
     (by decide)⟩


theorem upsert_values_isSome (l : List PairedEmbeddings) :
    ∀ i : Nat, (upsert_values l i).isSome = true := by
  induction l with
  | nil => intro i; rfl
  | cons p rest ih =>
    intro i
    obtain ⟨v, hv⟩ := Option.isSome_iff_exists.mp (ih (i + 1))
    cases v
    simp [upsert_values, to_string, hv]

/-- Claim C10: both persistence strategies unwrap `serde_json` vector
serialization with `expect` (modelled: a serialization failure would be a
panic, the `none` outcome, not a job error); under the precondition that
every embeddings value is finite, serialization succeeds and the panic
branch is unreachable — neither `build_upsert_query` nor
`update_append_table` produces the panic outcome. -/
theorem serialization_panic_unreachable
    (schema table project pkey pkey_type : String) (pool : DbExec)
    (pairs : List PairedEmbeddings)
    (_hfin : ∀ p ∈ pairs, ∀ x ∈ p.embeddings, x.isFinite = true) :
    (build_upsert_query schema project pairs).isSome = true ∧
    (update_append_table pool pairs schema table project pkey pkey_type).1.isSome = true := by
  constructor
  · obtain ⟨v, hv⟩ := Option.isSome_iff_exists.mp (upsert_values_isSome pairs 0)
    cases v
    simp [build_upsert_query, hv]
  · clear _hfin
    induction pairs with
    | nil => rfl
    | cons p rest ih =>
      simp only [update_append_table, to_string]
      cases pool ⟨append_update_query schema table project pkey pkey_type,
          [json_array p.embeddings, p.primary_key]⟩ with
      | error e => rfl
      | ok _ =>
        obtain ⟨r, stmts, hrec⟩ :
            ∃ r stmts, update_append_table pool rest schema table project pkey pkey_type =
              (r, stmts) := ⟨_, _, rfl⟩
        rw [hrec] at ih ⊢
        exact ih

/-- Claim C10 witness: a concrete all-finite batch panics in neither
strategy. -/
theorem serialization_panic_unreachable_witness :
    (∀ p ∈ ([⟨"a", [.finite 1, .finite 2]⟩] : List PairedEmbeddings),
      ∀ x ∈ p.embeddings, x.isFinite = true) ∧
    (build_upsert_query "s" "proj" [⟨"a", [.finite 1, .finite 2]⟩]).isSome = true ∧
    (update_append_table (fun _ => .ok ()) [⟨"a", [.finite 1, .finite 2]⟩]
      "s" "t" "proj" "id" "int").1.isSome = true :=
  ⟨by decide,
   serialization_panic_unreachable "s" "t" "proj" "id" "int" (fun _ => .ok ())
     [⟨"a", [.finite 1, .finite 2]⟩] (by decide)⟩

/-- Claim C8: the append strategy issues, for each Paired Embedding in
order, one UPDATE statement with the source's query text (schema, table,
project, primary key and key type interpolated; `$1` the serialized vector,
`$2` the key); when every statement succeeds it issues exactly one per
record, and a failure on record `k` aborts the remaining records — the
trace stops at `k` and the job surfaces the error. -/
theorem update_append_table_per_record
    (pool : DbExec) (schema table project pkey pkey_type : String) :
    (∀ pairs : List PairedEmbeddings,
      (∀ p ∈ pairs, pool ⟨append_update_query schema table project pkey pkey_type,
          [json_array p.embeddings, p.primary_key]⟩ = .ok ()) →
      update_append_table pool pairs schema table project pkey pkey_type =
        (some (.ok ()), pairs.map fun p =>
          ⟨append_update_query schema table project pkey pkey_type,
            [json_array p.embeddings, p.primary_key]⟩)) ∧
    (∀ (pre post : List PairedEmbeddings) (k : PairedEmbeddings) (e : String),
      (∀ p ∈ pre, pool ⟨append_update_query schema table project pkey pkey_type,
          [json_array p.embeddings, p.primary_key]⟩ = .ok ()) →
      pool ⟨append_update_query schema table project pkey pkey_type,
          [json_array k.embeddings, k.primary_key]⟩ = .error e →
      update_append_table pool (pre ++ k :: post) schema table project pkey pkey_type =
        (some (.error e), (pre ++ [k]).map fun p =>
          ⟨append_update_query schema table project pkey pkey_type,
            [json_array p.embeddings, p.primary_key]⟩)) := by
  constructor
  · intro pairs hok
    induction pairs with
    | nil => rfl
    | cons p rest ih =>
      simp only [update_append_table, to_string, hok p (by simp), List.map_cons]
      rw [ih fun p hp => hok p (by simp [hp])]
  · intro pre post k e hok herr
    induction pre with
    | nil =>
      simp only [List.nil_append, update_append_table, to_string, herr, List.map_cons,
        List.map_nil]
    | cons p pre ih =>
      simp only [List.cons_append, update_append_table, to_string, hok p (by simp),
        List.map_cons]
      simp only [List.append_eq, ih fun p hp => hok p (by simp [hp])]

/-- A database oracle failing exactly on the statement whose bound key is
"b" (used by the C8 witness). -/
def pool_fail_b : DbExec := fun s =>
  if s.binds = [json_array [F64.finite 2], "b"] then Except.error "db down" else Except.ok ()

/-- Claim C8 witness: with a pool failing exactly on key "b", the batch
`[a, b, c]` issues the statements for `a` and `b` only and surfaces the
error. -/
theorem update_append_table_per_record_witness :
    (∀ p ∈ ([⟨"a", [.finite 1]⟩] : List PairedEmbeddings),
      pool_fail_b ⟨append_update_query "s" "t" "proj" "id" "int",
          [json_array p.embeddings, p.primary_key]⟩ = .ok ()) ∧
    update_append_table pool_fail_b
        [⟨"a", [.finite 1]⟩, ⟨"b", [.finite 2]⟩, ⟨"c", [.finite 3]⟩]
        "s" "t" "proj" "id" "int" =
      (some (.error "db down"),
        ([⟨"a", [.finite 1]⟩, ⟨"b", [.finite 2]⟩] : List PairedEmbeddings).map
          fun p => (⟨append_update_query "s" "t" "proj" "id" "int",
            [json_array p.embeddings, p.primary_key]⟩ : SqlStmt)) :=
  ⟨by decide,
   (update_append_table_per_record pool_fail_b "s" "t" "proj" "id" "int").2
     [⟨"a", [.finite 1]⟩] [⟨"c", [.finite 3]⟩] ⟨"b", [.finite 2]⟩ "db down"
     (by decide) (by decide)⟩


theorem find_key_perm (embeds embedsPerm : List KeyedVector)
    (hperm : embedsPerm.Perm embeds)
    (hnodup : (embeds.map KeyedVector.primary_key).Nodup) (k : String) :
    embedsPerm.find? (fun e => e.primary_key == k) =
      embeds.find? (fun e => e.primary_key == k) := by
  cases h' : embedsPerm.find? (fun e => e.primary_key == k) with
  | none =>
    rw [List.find?_eq_none] at h'
    symm
    rw [List.find?_eq_none]
    intro x hx
    exact h' x (hperm.mem_iff.mpr hx)
  | some x =>
    have hmem : x ∈ embeds := hperm.mem_iff.mp (List.mem_of_find?_eq_some h')
    have hpx := List.find?_some h'
    cases h2 : embeds.find? (fun e => e.primary_key == k) with
    | none =>
      rw [List.find?_eq_none] at h2
      exact absurd hpx (by simpa using h2 x hmem)
    | some y =>
      have hmy : y ∈ embeds := List.mem_of_find?_eq_some h2
      have hpy := List.find?_some h2
      have hkey : x.primary_key = y.primary_key := by
        rw [beq_iff_eq] at hpx hpy
        rw [hpx, hpy]
      exact congrArg some (List.inj_on_of_nodup_map hnodup hmem hmy hkey)

/-- Claim C2: the merge of dispatcher output with the original Input
Records is keyed by primary key, never positional — permuting the
dispatcher's output (distinct keys) leaves the Paired Embeddings unchanged,
and when the output keys cover the inputs, the result pairs each input's
primary key, in input order, with exactly the vector the dispatcher
returned for that key (one Paired Embedding per Input Record). -/
theorem merge_input_output_keyed_pairing
    (inputs : List InputRecord) (embeds embedsPerm : List KeyedVector)
    (hnodup : (embeds.map KeyedVector.primary_key).Nodup)
    (hperm : embedsPerm.Perm embeds)
    (hcover : ∀ inp ∈ inputs, ∃ e ∈ embeds, e.primary_key = inp.record_id) :
    merge_input_output inputs embedsPerm = merge_input_output inputs embeds ∧
    (merge_input_output inputs embeds).map PairedEmbeddings.primary_key =
      inputs.map InputRecord.record_id ∧
    (∀ pe ∈ merge_input_output inputs embeds, ∀ e ∈ embeds,
      e.primary_key = pe.primary_key → pe.embeddings = e.embeddings) := by
  refine ⟨?_, ?_, ?_⟩
  · simp only [merge_input_output]
    exact List.filterMap_congr fun inp _ => by
      rw [find_key_perm embeds embedsPerm hperm hnodup]
  · clear hperm
    induction inputs with
    | nil => rfl
    | cons inp rest ih =>
      obtain ⟨e, he, hke⟩ := hcover inp (by simp)
      cases hfind : embeds.find? (fun x => x.primary_key == inp.record_id) with
      | none =>
        rw [List.find?_eq_none] at hfind
        exact absurd (beq_iff_eq.mpr hke) (by simpa using hfind e he)
      | some e0 =>
        simp only [merge_input_output, List.filterMap_cons, hfind, Option.map_some]
        simpa [merge_input_output] using ih fun i hi => hcover i (by simp [hi])
  · intro pe hpe e he hkey
    obtain ⟨inp, hinp, hfe⟩ := List.mem_filterMap.mp hpe
    cases hfind : embeds.find? (fun x => x.primary_key == inp.record_id) with
    | none => rw [hfind] at hfe; exact absurd hfe (by simp)
    | some e0 =>
      rw [hfind] at hfe
      have hpe0 : pe = ⟨inp.record_id, e0.embeddings⟩ := by
        simpa using hfe.symm
      have he0 : e0 ∈ embeds := List.mem_of_find?_eq_some hfind
      have hfs := List.find?_some hfind
      have hk0 : e0.primary_key = inp.record_id := by
        simpa [beq_iff_eq] using hfs
      have hkk : e.primary_key = e0.primary_key := by
        rw [hkey, hpe0]
        exact hk0.symm
      rw [List.inj_on_of_nodup_map hnodup he he0 hkk, hpe0]

/-- Claim C2 witness: two inputs with the dispatcher output permuted — the
merge is unchanged by the permutation and pairs each key with the vector
the dispatcher labelled with that key. -/
theorem merge_input_output_keyed_pairing_witness :
    (([⟨"a", [.finite 1]⟩, ⟨"b", [.finite 2]⟩] : List KeyedVector).map
        KeyedVector.primary_key).Nodup ∧
    ([⟨"b", [.finite 2]⟩, ⟨"a", [.finite 1]⟩] : List KeyedVector).Perm
      [⟨"a", [.finite 1]⟩, ⟨"b", [.finite 2]⟩] ∧
    (∀ inp ∈ ([⟨"a", "s"⟩, ⟨"b", "u"⟩] : List InputRecord),
      ∃ e ∈ ([⟨"a", [.finite 1]⟩, ⟨"b", [.finite 2]⟩] : List KeyedVector),
        e.primary_key = inp.record_id) ∧
    (merge_input_output [⟨"a", "s"⟩, ⟨"b", "u"⟩]
        [⟨"b", [.finite 2]⟩, ⟨"a", [.finite 1]⟩] =
      merge_input_output [⟨"a", "s"⟩, ⟨"b", "u"⟩]
        [⟨"a", [.finite 1]⟩, ⟨"b", [.finite 2]⟩] ∧
    (merge_input_output [⟨"a", "s"⟩, ⟨"b", "u"⟩]
        [⟨"a", [.finite 1]⟩, ⟨"b", [.finite 2]⟩]).map PairedEmbeddings.primary_key =
      ([⟨"a", "s"⟩, ⟨"b", "u"⟩] : List InputRecord).map InputRecord.record_id ∧
    (∀ pe ∈ merge_input_output [⟨"a", "s"⟩, ⟨"b", "u"⟩]
        [⟨"a", [.finite 1]⟩, ⟨"b", [.finite 2]⟩],
      ∀ e ∈ ([⟨"a", [.finite 1]⟩, ⟨"b", [.finite 2]⟩] : List KeyedVector),
        e.primary_key = pe.primary_key → pe.embeddings = e.embeddings)) :=
  ⟨by decide, by decide, by decide,
   merge_input_output_keyed_pairing [⟨"a", "s"⟩, ⟨"b", "u"⟩]
     [⟨"a", [.finite 1]⟩, ⟨"b", [.finite 2]⟩] [⟨"b", [.finite 2]⟩, ⟨"a", [.finite 1]⟩]
     (by decide) (by decide) (by decide)⟩


/-- The last value written for key `k` by a sequence of upsert VALUES rows
(later rows override earlier ones). -/
def last_value (rows : List (String × String)) (k : String) : Option String :=
  rows.foldl (fun acc r => if r.1 == k then some r.2 else acc) none

theorem last_value_foldl (k : String) (rows : List (String × String)) :
    ∀ acc, rows.foldl (fun acc r => if r.1 == k then some r.2 else acc) acc =
      match rows.foldl (fun acc r => if r.1 == k then some r.2 else acc) none with
      | some v => some v
      | none => acc := by
  induction rows with
  | nil => intro acc; rfl
  | cons r rows ih =>
    intro acc
    simp only [List.foldl_cons]
    rw [ih (if r.1 == k then some r.2 else acc), ih (if r.1 == k then some r.2 else none)]
    cases h : rows.foldl (fun acc r => if r.1 == k then some r.2 else acc) none with
    | some v => rfl
    | none => cases hr : r.1 == k <;> simp

theorem last_value_cons (r : String × String) (rows : List (String × String)) (k : String) :
    last_value (r :: rows) k =
      match last_value rows k with
      | some v => some v
      | none => if r.1 == k then some r.2 else none := by
  unfold last_value
  simp only [List.foldl_cons]
  exact last_value_foldl k rows _

/-- The row-level effect of a whole upsert statement on one existing row:
its embeddings become the last value written for its key, if any. -/
def row_set (rows : List (String × String)) (x : String × String) : String × String :=
  match last_value rows x.1 with
  | some v => (x.1, v)
  | none => x

theorem join_keys_map_set (t : JoinTable) (r : String × String) :
    join_keys (t.map fun x => if x.1 == r.1 then (x.1, r.2) else x) = join_keys t := by
  unfold join_keys
  rw [List.map_map]
  refine List.map_congr_left fun x _ => ?_
  simp only [Function.comp_def]
  split <;> rfl

theorem join_keys_upsert_row (t : JoinTable) (r : String × String) :
    join_keys (upsert_row t r) =
      if t.any (fun row => row.1 == r.1) then join_keys t else join_keys t ++ [r.1] := by
  unfold upsert_row
  split
  · next h => exact join_keys_map_set t r
  · next h => unfold join_keys; simp

theorem mem_join_keys_upsert_row (t : JoinTable) (r : String × String) (k : String)
    (hk : k ∈ join_keys t) : k ∈ join_keys (upsert_row t r) := by
  rw [join_keys_upsert_row]
  split
  · exact hk
  · exact List.mem_append_left _ hk

theorem self_mem_join_keys_upsert_row (t : JoinTable) (r : String × String) :
    r.1 ∈ join_keys (upsert_row t r) := by
  rw [join_keys_upsert_row]
  split
  · next h =>
    obtain ⟨row, hrow, hbeq⟩ := List.any_eq_true.mp h
    rw [← beq_iff_eq.mp hbeq]
    exact List.mem_map_of_mem Prod.fst hrow
  · exact List.mem_append_right _ (by simp)

theorem mem_join_keys_apply_upsert (rows : List (String × String)) :
    ∀ (t : JoinTable) (k : String), k ∈ join_keys t → k ∈ join_keys (apply_upsert t rows) := by
  induction rows with
  | nil => intro t k hk; exact hk
  | cons r rows ih =>
    intro t k hk
    exact ih (upsert_row t r) k (mem_join_keys_upsert_row t r k hk)

theorem rows_mem_join_keys_apply_upsert (rows : List (String × String)) :
    ∀ (t : JoinTable), ∀ r ∈ rows, r.1 ∈ join_keys (apply_upsert t rows) := by
  induction rows with
  | nil => intro t r hr; simp at hr
  | cons q rows ih =>
    intro t r hr
    rcases List.mem_cons.mp hr with h | h
    · subst h
      exact mem_join_keys_apply_upsert rows (upsert_row t r) r.1
        (self_mem_join_keys_upsert_row t r)
    · exact ih (upsert_row t q) r h

theorem upsert_row_all_present (t : JoinTable) (r : String × String)
    (h : r.1 ∈ join_keys t) :
    upsert_row t r = t.map fun x => if x.1 == r.1 then (x.1, r.2) else x := by
  obtain ⟨row, hrow, hfst⟩ := List.mem_map.mp h
  have hany : (t.any fun row => row.1 == r.1) = true :=
    List.any_eq_true.mpr ⟨row, hrow, beq_iff_eq.mpr hfst⟩
  unfold upsert_row
  split
  · rfl
  · next hno => exact absurd hany hno

theorem row_set_after_set (rows : List (String × String)) (r x : String × String) :
    row_set rows (if x.1 == r.1 then (x.1, r.2) else x) = row_set (r :: rows) x := by
  have hfst : (if x.1 == r.1 then (x.1, r.2) else x).1 = x.1 := by
    cases h : x.1 == r.1 <;> simp
  unfold row_set
  rw [last_value_cons, hfst]
  cases hlv : last_value rows x.1 with
  | some v => rfl
  | none =>
    by_cases hxr : x.1 = r.1
    · simp [beq_iff_eq, hxr]
    · have hrx : ¬(r.1 = x.1) := fun he => hxr he.symm
      simp [beq_iff_eq, hxr, hrx]

theorem apply_upsert_all_present (rows : List (String × String)) :
    ∀ t : JoinTable, (∀ r ∈ rows, r.1 ∈ join_keys t) →
      apply_upsert t rows = t.map (row_set rows) := by
  induction rows with
  | nil =>
    intro t _
    have hid : row_set ([] : List (String × String)) = fun x => x := funext fun _ => rfl
    simp only [apply_upsert, List.foldl_nil, hid, List.map_id']
  | cons r rows ih =>
    intro t hall
    show apply_upsert (upsert_row t r) rows = _
    rw [upsert_row_all_present t r (hall r (by simp))]
    rw [ih _ fun q hq => by
      rw [join_keys_map_set]
      exact hall q (by simp [hq])]
    rw [List.map_map]
    exact List.map_congr_left fun x _ => row_set_after_set rows r x

theorem mem_upsert_row_key_val (t : JoinTable) (r x : String × String)
    (hx : x ∈ upsert_row t r) (hk : x.1 = r.1) : x.2 = r.2 := by
  unfold upsert_row at hx
  split at hx
  · obtain ⟨y, hy, hxy⟩ := List.mem_map.mp hx
    by_cases h : y.1 = r.1
    · rw [if_pos (beq_iff_eq.mpr h)] at hxy
      rw [← hxy]
    · rw [if_neg (fun hb => h (beq_iff_eq.mp hb))] at hxy
      rw [← hxy] at hk
      exact absurd hk h
  · next hany =>
    rcases List.mem_append.mp hx with h | h
    · have : (t.any fun row => row.1 == r.1) = true :=
        List.any_eq_true.mpr ⟨x, h, beq_iff_eq.mpr hk⟩
      exact absurd this hany
    · rw [List.mem_singleton.mp h]

theorem mem_upsert_row_other (t : JoinTable) (r x : String × String)
    (hx : x ∈ upsert_row t r) (hk : x.1 ≠ r.1) : x ∈ t := by
  unfold upsert_row at hx
  split at hx
  · obtain ⟨y, hy, hxy⟩ := List.mem_map.mp hx
    by_cases h : y.1 = r.1
    · rw [if_pos (beq_iff_eq.mpr h)] at hxy
      rw [← hxy] at hk
      exact absurd h hk
    · rw [if_neg (fun hb => h (beq_iff_eq.mp hb))] at hxy
      rw [← hxy]
      exact hy
  · rcases List.mem_append.mp hx with h | h
    · exact h
    · rw [List.mem_singleton.mp h] at hk
      exact absurd rfl hk

theorem untouched_key_mem (rows : List (String × String)) :
    ∀ (t : JoinTable) (x : String × String), last_value rows x.1 = none →
      x ∈ apply_upsert t rows → x ∈ t := by
  induction rows with
  | nil => intro t x _ hx; exact hx
  | cons r rows ih =>
    intro t x hlv hx
    rw [last_value_cons] at hlv
    cases h2 : last_value rows x.1 with
    | some v => rw [h2] at hlv; exact absurd hlv (by simp)
    | none =>
      rw [h2] at hlv
      have hne : x.1 ≠ r.1 := by
        intro he
        rw [he] at hlv
        simp at hlv
      exact mem_upsert_row_other t r x (ih (upsert_row t r) x h2 hx) hne

theorem apply_upsert_row_stable (rows : List (String × String)) :
    ∀ (t : JoinTable), ∀ x ∈ apply_upsert t rows, row_set rows x = x := by
  induction rows with
  | nil => intro t x _; rfl
  | cons r rows ih =>
    intro t x hx
    unfold row_set
    rw [last_value_cons]
    cases h2 : last_value rows x.1 with
    | some v =>
      have hst := ih (upsert_row t r) x hx
      unfold row_set at hst
      rw [h2] at hst
      exact hst
    | none =>
      cases hbr : r.1 == x.1 with
      | false => rfl
      | true =>
        have hxt : x ∈ upsert_row t r := untouched_key_mem rows (upsert_row t r) x h2 hx
        have hk : x.1 = r.1 := (beq_iff_eq.mp hbr).symm
        have hv := mem_upsert_row_key_val t r x hxt hk
        show (x.1, r.2) = x
        rw [← hv]

theorem apply_upsert_idem (t : JoinTable) (rows : List (String × String)) :
    apply_upsert (apply_upsert t rows) rows = apply_upsert t rows := by
  rw [apply_upsert_all_present rows (apply_upsert t rows)
    (fun r hr => rows_mem_join_keys_apply_upsert rows t r hr)]
  rw [List.map_congr_left fun x hx => apply_upsert_row_stable rows t x hx]
  exact List.map_id _

theorem join_keys_upsert_row_nodup (t : JoinTable) (r : String × String)
    (h : (join_keys t).Nodup) : (join_keys (upsert_row t r)).Nodup := by
  rw [join_keys_upsert_row]
  split
  · exact h
  · next hany =>
    have hnm : r.1 ∉ join_keys t := by
      intro hm
      obtain ⟨row, hrow, hfst⟩ := List.mem_map.mp hm
      have : (t.any fun row => row.1 == r.1) = true :=
        List.any_eq_true.mpr ⟨row, hrow, beq_iff_eq.mpr hfst⟩
      exact absurd this hany
    simp [List.nodup_append, h, hnm]

theorem apply_upsert_nodup (rows : List (String × String)) :
    ∀ t : JoinTable, (join_keys t).Nodup → (join_keys (apply_upsert t rows)).Nodup := by
  induction rows with
  | nil => intro t h; exact h
  | cons r rows ih =>
    intro t h
    exact ih (upsert_row t r) (join_keys_upsert_row_nodup t r h)


/-- The row-level effect of one append-strategy UPDATE statement. -/
def row_app (τ : Nat) (stmt : SqlStmt) (row : AppendRow) : AppendRow :=
  match stmt.binds with
  | [v, k] =>
    if row.key == k then { row with embeddings_col := some v, updated_at := some τ }
    else row
  | _ => row

theorem apply_append_stmt_map (τ : Nat) (t : List AppendRow) (stmt : SqlStmt) :
    apply_append_stmt τ t stmt = t.map (row_app τ stmt) := by
  rcases stmt with ⟨q, binds⟩
  rcases binds with _ | ⟨v, _ | ⟨k, _ | ⟨x, rest⟩⟩⟩
  · show t = t.map (row_app τ ⟨q, []⟩)
    rw [show row_app τ (⟨q, []⟩ : SqlStmt) = fun row => row from funext fun _ => rfl]
    exact (List.map_id' t).symm
  · show t = t.map (row_app τ ⟨q, [v]⟩)
    rw [show row_app τ (⟨q, [v]⟩ : SqlStmt) = fun row => row from funext fun _ => rfl]
    exact (List.map_id' t).symm
  · exact List.map_congr_left fun row _ => rfl
  · show t = t.map (row_app τ ⟨q, v :: k :: x :: rest⟩)
    rw [show row_app τ (⟨q, v :: k :: x :: rest⟩ : SqlStmt) = fun row => row from
      funext fun _ => rfl]
    exact (List.map_id' t).symm

/-- The row-level effect of a whole run of append UPDATE statements. -/
def run_row (τ : Nat) (stmts : List SqlStmt) (row : AppendRow) : AppendRow :=
  stmts.foldl (fun row stmt => row_app τ stmt row) row

theorem apply_append_run_map (stmts : List SqlStmt) :
    ∀ (t : List AppendRow) (τ : Nat),
      apply_append_run t stmts τ = t.map (run_row τ stmts) := by
  induction stmts with
  | nil =>
    intro t τ
    have hid : run_row τ ([] : List SqlStmt) = fun row => row := funext fun _ => rfl
    simp [apply_append_run, hid, List.map_id']
  | cons stmt stmts ih =>
    intro t τ
    show apply_append_run (apply_append_stmt τ t stmt) stmts τ = _
    rw [ih, apply_append_stmt_map, List.map_map]
    exact List.map_congr_left fun row _ => rfl

/-- The `$1` value of the last statement of the run whose `$2` key is `k`. -/
def stmt_last_value (stmts : List SqlStmt) (k : String) : Option String :=
  stmts.foldl
    (fun acc stmt =>
      match stmt.binds with
      | [v, k2] => if k2 == k then some v else acc
      | _ => acc)
    none

theorem stmt_last_value_foldl (k : String) (stmts : List SqlStmt) :
    ∀ acc, stmts.foldl
        (fun acc stmt =>
          match stmt.binds with
          | [v, k2] => if k2 == k then some v else acc
          | _ => acc) acc =
      match stmts.foldl
          (fun acc stmt =>
            match stmt.binds with
            | [v, k2] => if k2 == k then some v else acc
            | _ => acc) none with
      | some v => some v
      | none => acc := by
  induction stmts with
  | nil => intro acc; rfl
  | cons stmt stmts ih =>
    intro acc
    simp only [List.foldl_cons]
    rw [ih, ih (match stmt.binds with
      | [v, k2] => if k2 == k then some v else none
      | _ => none)]
    cases h : stmts.foldl
        (fun acc stmt =>
          match stmt.binds with
          | [v, k2] => if k2 == k then some v else acc
          | _ => acc) none with
    | some v => rfl
    | none =>
      rcases stmt with ⟨q, binds⟩
      rcases binds with _ | ⟨v, _ | ⟨k2, _ | ⟨x, rest⟩⟩⟩
      · rfl
      · rfl
      · by_cases hk2 : k2 = k <;> simp [hk2]
      · rfl

theorem stmt_last_value_cons (stmt : SqlStmt) (stmts : List SqlStmt) (k : String) :
    stmt_last_value (stmt :: stmts) k =
      match stmt_last_value stmts k with
      | some v => some v
      | none =>
        match stmt.binds with
        | [v, k2] => if k2 == k then some v else none
        | _ => none := by
  unfold stmt_last_value
  simp only [List.foldl_cons]
  exact stmt_last_value_foldl k stmts _

theorem row_app_key (τ : Nat) (stmt : SqlStmt) (row : AppendRow) :
    (row_app τ stmt row).key = row.key := by
  unfold row_app
  rcases stmt with ⟨q, binds⟩
  rcases binds with _ | ⟨v, _ | ⟨k, _ | ⟨x, rest⟩⟩⟩
  · rfl
  · rfl
  · cases h : row.key == k <;> simp [h]
  · rfl

theorem row_app_content (τ : Nat) (stmt : SqlStmt) (row : AppendRow) :
    (row_app τ stmt row).content = row.content := by
  unfold row_app
  rcases stmt with ⟨q, binds⟩
  rcases binds with _ | ⟨v, _ | ⟨k, _ | ⟨x, rest⟩⟩⟩
  · rfl
  · rfl
  · cases h : row.key == k <;> simp [h]
  · rfl

theorem row_app_override (τ1 τ2 : Nat) (v : String) (stmt : SqlStmt) (row : AppendRow) :
    { row_app τ1 stmt row with embeddings_col := some v, updated_at := some τ2 } =
      { row with embeddings_col := some v, updated_at := some τ2 } := by
  unfold row_app
  rcases stmt with ⟨q, binds⟩
  rcases binds with _ | ⟨w, _ | ⟨k, _ | ⟨x, rest⟩⟩⟩
  · rfl
  · rfl
  · cases h : row.key == k <;> simp [h]
  · rfl

theorem run_row_closed (τ : Nat) (stmts : List SqlStmt) :
    ∀ row : AppendRow, run_row τ stmts row =
      match stmt_last_value stmts row.key with
      | some v => { row with embeddings_col := some v, updated_at := some τ }
      | none => row := by
  induction stmts with
  | nil => intro row; rfl
  | cons stmt stmts ih =>
    intro row
    show run_row τ stmts (row_app τ stmt row) = _
    rw [ih (row_app τ stmt row), stmt_last_value_cons, row_app_key, row_app_content]
    cases h2 : stmt_last_value stmts row.key with
    | some v => rfl
    | none =>
      unfold row_app
      rcases stmt with ⟨q, binds⟩
      rcases binds with _ | ⟨v, _ | ⟨k2, _ | ⟨x, rest⟩⟩⟩
      · rfl
      · rfl
      · cases hk : row.key == k2 with
        | false =>
          have hsym : (k2 == row.key) = false := by
            cases hk2 : k2 == row.key
            · rfl
            · rw [beq_iff_eq.mp hk2, beq_self_eq_true] at hk
              exact hk
          simp [hk, hsym]
        | true =>
          have hsym : (k2 == row.key) = true := by
            rw [beq_iff_eq] at hk ⊢
            exact hk.symm
          simp [hk, hsym]
      · rfl

theorem run_row_absorb (τ1 τ2 : Nat) (stmts : List SqlStmt) (row : AppendRow) :
    run_row τ2 stmts (run_row τ1 stmts row) = run_row τ2 stmts row := by
  rw [run_row_closed τ1 stmts row]
  cases h : stmt_last_value stmts row.key with
  | none => rfl
  | some v =>
    rw [run_row_closed τ2 stmts, run_row_closed τ2 stmts row, h]

theorem apply_append_run_absorb (tbl : List AppendRow) (stmts : List SqlStmt)
    (τ1 τ2 : Nat) :
    apply_append_run (apply_append_run tbl stmts τ1) stmts τ2 =
      apply_append_run tbl stmts τ2 := by
  rw [apply_append_run_map, apply_append_run_map, apply_append_run_map, List.map_map]
  exact List.map_congr_left fun row _ => run_row_absorb τ1 τ2 stmts row

/-- Claim C4: re-running the same batch is idempotent for both persistence
strategies.  Join: re-applying the upsert statement built by
`build_upsert_query` to the table leaves it unchanged, and the table keeps
one row per primary key.  Append: re-applying the whole run of UPDATE
statements issued by `update_append_table` (at any later time) yields
exactly the state of a single run at that time. -/
theorem persistence_strategies_idempotent
    (schema table project pkey pkey_type : String)
    (pairs : List PairedEmbeddings) (q : String) (binds : List (String × String))
    (_hq : build_upsert_query schema project pairs = some (q, binds)) :
    (∀ t : JoinTable, apply_upsert (apply_upsert t binds) binds = apply_upsert t binds) ∧
    (∀ t : JoinTable, (join_keys t).Nodup → (join_keys (apply_upsert t binds)).Nodup) ∧
    (∀ (pool : DbExec) (r : Option (Except String Unit)) (stmts : List SqlStmt),
      update_append_table pool pairs schema table project pkey pkey_type = (r, stmts) →
      ∀ (tbl : List AppendRow) (τ1 τ2 : Nat),
        apply_append_run (apply_append_run tbl stmts τ1) stmts τ2 =
          apply_append_run tbl stmts τ2) := by
  refine ⟨fun t => apply_upsert_idem t binds,
    fun t h => apply_upsert_nodup binds t h,
    fun pool r stmts _ tbl τ1 τ2 => apply_append_run_absorb tbl stmts τ1 τ2⟩

set_option maxRecDepth 40000 in
/-- Claim C4 witness: a one-record batch — upserting the built bindings
twice equals once with no duplicate key, and re-running the issued append
UPDATE at time 1 after time 0 equals a single run at time 1. -/
theorem persistence_strategies_idempotent_witness :
    build_upsert_query "s" "proj" [⟨"a", [.finite 1]⟩] =
      some (insert_stmt_head "s" "proj" ++ " ($1, $2::vector)" ++ on_conflict_clause,
        [("a", "[1]")]) ∧
    apply_upsert (apply_upsert [("b", "old")] [("a", "[1]")]) [("a", "[1]")] =
      apply_upsert [("b", "old")] [("a", "[1]")] ∧
    (join_keys (apply_upsert ([("b", "old")] : JoinTable) [("a", "[1]")])).Nodup ∧
    update_append_table (fun _ => .ok ()) [⟨"a", [.finite 1]⟩] "s" "t" "proj" "id" "int" =
      (some (.ok ()), [⟨append_update_query "s" "t" "proj" "id" "int", ["[1]", "a"]⟩]) ∧
    apply_append_run
        (apply_append_run [⟨"a", "c", none, none⟩]
          [⟨append_update_query "s" "t" "proj" "id" "int", ["[1]", "a"]⟩] 0)
        [⟨append_update_query "s" "t" "proj" "id" "int", ["[1]", "a"]⟩] 1 =
      apply_append_run [⟨"a", "c", none, none⟩]
        [⟨append_update_query "s" "t" "proj" "id" "int", ["[1]", "a"]⟩] 1 :=
  ⟨by decide,
   (persistence_strategies_idempotent "s" "t" "proj" "id" "int" [⟨"a", [.finite 1]⟩]
     (insert_stmt_head "s" "proj" ++ " ($1, $2::vector)" ++ on_conflict_clause)
     [("a", "[1]")] (by decide)).1 [("b", "old")],
   (persistence_strategies_idempotent "s" "t" "proj" "id" "int" [⟨"a", [.finite 1]⟩]
     (insert_stmt_head "s" "proj" ++ " ($1, $2::vector)" ++ on_conflict_clause)
     [("a", "[1]")] (by decide)).2.1 [("b", "old")] (by decide),
   by decide,
   (persistence_strategies_idempotent "s" "t" "proj" "id" "int" [⟨"a", [.finite 1]⟩]
     (insert_stmt_head "s" "proj" ++ " ($1, $2::vector)" ++ on_conflict_clause)
     [("a", "[1]")] (by decide)).2.2 (fun _ => .ok ()) (some (.ok ()))
     [⟨append_update_query "s" "t" "proj" "id" "int", ["[1]", "a"]⟩] (by decide)
     [⟨"a", "c", none, none⟩] 0 1⟩

end PgVectorize
